import Mathlib

/-
  Verification of the diff-coverage tool (go-new-code-coverage).

  Shallow embedding of src/internal/diffcoverage/{logic.go, runner.go}.
  Go strings are modelled as `List Char`; all helpers below are
  kernel-computable translations of the Go standard-library calls the
  code uses (strings.Split on one-character separators, strings.Fields,
  strconv.Atoi with the int64 range check, bufio line scanning,
  path/filepath Clean and Join).  `filepath.ToSlash` is the identity on
  the target platform (separator is already a forward slash) and is
  therefore dropped.  Go's `float64` arithmetic is modelled by exact
  rationals: every property proved below is about control flow and data
  preservation, not about rounding.
-/

set_option linter.unusedVariables false

/-- Go strings, modelled as their character lists. -/
abbrev Str := List Char

/-- strings.HasPrefix: does `p` occur as a leading segment of `s`? -/
def leadsWith : Str → Str → Bool
  | [], _ => true
  | _ :: _, [] => false
  | p :: ps, c :: cs => p = c && leadsWith ps cs

/-- strings.TrimPrefix combined with the HasPrefix test: remove a leading
segment, reporting failure when it is not present. -/
def stripPre : Str → Str → Option Str
  | [], s => some s
  | _ :: _, [] => none
  | p :: ps, c :: cs => if p = c then stripPre ps cs else none

/-- strings.HasSuffix. -/
def endsIn (p s : Str) : Bool := leadsWith p.reverse s.reverse

/-- strings.Contains. -/
def hasInfixStr (p : Str) : Str → Bool
  | [] => leadsWith p []
  | c :: t => leadsWith p (c :: t) || hasInfixStr p t

/-- strings.Split with a one-character separator (every separator used by
the coverage parser is a single character). -/
def splitCh (sep : Char) : Str → List Str
  | [] => [[]]
  | c :: t =>
    if c = sep then [] :: splitCh sep t
    else
      match splitCh sep t with
      | [] => [[c]]
      | g :: gs => (c :: g) :: gs

/-- bufio line splitting: accumulate characters until a newline. -/
def splitLinesAux (acc : Str) : Str → List Str
  | [] => if acc = [] then [] else [acc.reverse]
  | c :: t => if c = '\n' then acc.reverse :: splitLinesAux [] t else splitLinesAux (c :: acc) t

/-- bufio.ScanLines drops one trailing carriage return from each line. -/
def dropCR (l : Str) : Str :=
  match l.getLast? with
  | some c => if c = '\r' then l.dropLast else l
  | none => l

/-- The sequence of lines a bufio.Scanner with ScanLines yields on `text`. -/
def goLines (text : Str) : List Str := (splitLinesAux [] text).map dropCR

/-- The ASCII white-space set used by strings.Fields / strings.TrimSpace
(exotic Unicode space characters are not modelled). -/
def goIsSpace (c : Char) : Bool :=
  c = ' ' || c = '\t' || c = '\n' || c = '\x0b' || c = '\x0c' || c = '\r'

/-- strings.TrimSpace. -/
def trimSpace (s : Str) : Str :=
  ((s.dropWhile goIsSpace).reverse.dropWhile goIsSpace).reverse

/-- Worker for `goFields`: `cur` holds the reversed current token. -/
def goFieldsAux (cur : Str) : Str → List Str
  | [] => if cur = [] then [] else [cur.reverse]
  | c :: t =>
    if goIsSpace c then
      if cur = [] then goFieldsAux [] t else cur.reverse :: goFieldsAux [] t
    else goFieldsAux (c :: cur) t

/-- strings.Fields: split on white-space runs, dropping empty tokens. -/
def goFields (s : Str) : List Str := goFieldsAux [] s

/-- Numeric value of a digit string. -/
def digitsVal (ds : Str) : Nat := ds.foldl (fun a c => a * 10 + (c.toNat - 48)) 0

def int64Max : Int := 9223372036854775807

def int64Min : Int := -9223372036854775808

/-- strconv.Atoi: optional sign, at least one digit, nothing else, and the
value must fit in int64 (out-of-range input is an error, hence `none`). -/
def goAtoi (s : Str) : Option Int :=
  match s with
  | [] => none
  | c :: rest =>
    let neg := c = '-'
    let ds := if c = '-' || c = '+' then rest else s
    match ds with
    | [] => none
    | _ :: _ =>
      if ds.all Char.isDigit then
        let n : Int := (digitsVal ds : Int)
        let v : Int := if neg then -n else n
        if int64Min ≤ v ∧ v ≤ int64Max then some v else none
      else none

/-- strconv.Atoi on a non-empty digit string with the error discarded, as in
`newStart, _ := strconv.Atoi(...)`: overflow clips to the largest int64. -/
def goAtoiDigitsClip (ds : Str) : Int :=
  let n : Int := (digitsVal ds : Int)
  if n ≤ int64Max then n else int64Max

/-- Element stack of path/filepath Clean: `.` and empty elements vanish,
`..` pops (or is kept/dropped at the root depending on rootedness). -/
def cleanStack (rooted : Bool) : List Str → List Str → List Str
  | st, [] => st
  | st, e :: es =>
    if e = [] ∨ e = ['.'] then cleanStack rooted st es
    else if e = ['.', '.'] then
      match st with
      | [] => if rooted then cleanStack rooted [] es else cleanStack rooted [['.', '.']] es
      | top :: rest =>
        if top = ['.', '.'] then cleanStack rooted (e :: st) es
        else cleanStack rooted rest es
    else cleanStack rooted (e :: st) es

/-- Interleave path elements with forward slashes. -/
def joinSlash : List Str → Str
  | [] => []
  | [e] => e
  | e :: es => e ++ '/' :: joinSlash es

/-- path/filepath Clean for the forward-slash separator. -/
def clean (p : Str) : Str :=
  match p with
  | [] => ['.']
  | c :: _ =>
    let rooted := c = '/'
    let parts := (cleanStack rooted [] (splitCh '/' p)).reverse
    if parts = [] then (if rooted then ['/'] else ['.'])
    else (if rooted then [] ++ ['/'] else []) ++ joinSlash parts

/-- path/filepath Join of two elements: skip empty elements, join the rest
with a slash, Clean the result. -/
def goJoin (a b : Str) : Str :=
  if a = [] then (if b = [] then [] else clean b)
  else clean (a ++ '/' :: b)

/-- CoverageData (logic.go): for each file, the set of covered lines.
A Go `map[string]map[int]bool` is modelled by its membership function;
indexing a missing or nil inner map yields `false` exactly as in Go. -/
structure CoverageData where
  CoveredLines : Str → Int → Bool

/-- DiffData (logic.go): file → set of new/changed lines.  The map is
modelled as an association list in insertion order; line sets are
duplicate-free lists in insertion order. -/
structure DiffData where
  NewLines : List (Str × List Int)

/-- FuncLines (logic.go): file → [start, end] function line ranges. -/
structure FuncLines where
  Functions : List (Str × List (Int × Int))

def moduleTag : Str := "module ".data

/-- Worker for parseGoMod: first trimmed line starting with `module ` that
has a second field yields the module name. -/
def findModuleLine : List Str → Option Str
  | [] => none
  | l :: rest =>
    let line := trimSpace l
    if leadsWith moduleTag line then
      match goFields line with
      | _ :: name :: _ => some name
      | _ => findModuleLine rest
    else findModuleLine rest

/-- parseGoMod (logic.go): extract the module name from go.mod text.
`none` models the "module name not found" error; the file-open error is
outside the text model. -/
def parseGoMod (goModText : Str) : Option Str := findModuleLine (goLines goModText)

def modeTag : Str := "mode:".data

/-- The effect of the marking loop `for ln := startLine; ln <= endLine; ln++`
on the membership function of CoveredLines. -/
def markRange (cov : Str → Int → Bool) (path : Str) (s e : Int) : Str → Int → Bool :=
  fun q ln => if q = path ∧ s ≤ ln ∧ ln ≤ e then true else cov q ln

/-- One iteration of the parseCoverFile scanner loop (logic.go): each
`continue` leaves the accumulated coverage untouched. -/
def coverStep (moduleName : Str) (cov : Str → Int → Bool) (line : Str) : Str → Int → Bool :=
  if leadsWith modeTag line then cov
  else
    match splitCh ' ' line with
    | [fileRange, _, coverageCountStr] =>
      match splitCh ':' fileRange with
      | [absPath, rangePart] =>
        match stripPre (moduleName ++ ['/']) absPath with
        | none => cov
        | some relPath =>
          match goAtoi coverageCountStr with
          | none => cov
          | some coverageCount =>
            match splitCh ',' rangePart with
            | [rangeStart, rangeEnd] =>
              match splitCh '.' rangeStart, splitCh '.' rangeEnd with
              | [startStr, _], [endStr, _] =>
                match goAtoi startStr, goAtoi endStr with
                | some startLine, some endLine =>
                  if 0 < coverageCount then markRange cov relPath startLine endLine else cov
                | _, _ => cov
              | _, _ => cov
            | _ => cov
      | _ => cov
    | _ => cov

/-- parseCoverFile (logic.go).  Its Go error return is `scanner.Err()`,
which is I/O-only; on in-memory text the function always succeeds. -/
def parseCoverFile (coverText moduleName : Str) : CoverageData :=
  ⟨(goLines coverText).foldl (coverStep moduleName) (fun _ _ => false)⟩

def plusMarker : Str := "+++ ".data

def bSlashTag : Str := "b/".data

def testTag : Str := "_test.go".data

def goExt : Str := ".go".data

def hunkPre : Str := "@@ -".data

def hunkMid : Str := " +".data

def hunkEnd : Str := " @@".data

/-- `map[file][line] = true` on the association-list model: create the entry
when absent, otherwise add the line if it is not yet present. -/
def addNewLine : List (Str × List Int) → Str → Int → List (Str × List Int)
  | [], f, n => [(f, [n])]
  | e :: rest, f, n =>
    if e.1 = f then (e.1, if n ∈ e.2 then e.2 else e.2 ++ [n]) :: rest
    else e :: addNewLine rest f n

/-- Maximal digit run at the head of a string. -/
def takeDigits (s : Str) : Str × Str := (s.takeWhile Char.isDigit, s.dropWhile Char.isDigit)

/-- The optional group `,\d+` of the hunk-header regex.  When a comma is not
followed by a digit the group cannot participate in any match, so leaving
the input untouched (and letting the following literal fail) is exactly
the regex's backtracking behaviour. -/
def skipCommaDigits (s : Str) : Str :=
  match s with
  | ',' :: t =>
    match takeDigits t with
    | ([], _) => s
    | (_ :: _, u) => u
  | _ => s

/-- Match the hunk-header regexp at the beginning of `s`, returning the
digits of the second capture group (the new-range start). -/
def matchHunkAt (s : Str) : Option Str :=
  match stripPre hunkPre s with
  | none => none
  | some r0 =>
    match takeDigits r0 with
    | ([], _) => none
    | (_ :: _, r1) =>
      match stripPre hunkMid (skipCommaDigits r1) with
      | none => none
      | some r3 =>
        match takeDigits r3 with
        | ([], _) => none
        | (d2, r4) =>
          match stripPre hunkEnd (skipCommaDigits r4) with
          | none => none
          | some _ => some d2

/-- Leftmost match of the (unanchored) hunk-header regexp: Go's
MatchString/FindStringSubmatch pair on `hunkHeaderRegex`. -/
def findHunk (s : Str) : Option Str :=
  match matchHunkAt s with
  | some d => some d
  | none =>
    match s with
    | [] => none
    | _ :: t => findHunk t

/-- The two running variables of the parseDiffFile scan, plus the map under
construction. -/
structure DiffState where
  currentFile : Str
  plusStartLine : Int
  NewLines : List (Str × List Int)
  deriving DecidableEq

/-- One iteration of the parseDiffFile scanner loop (logic.go).  The three
`if ... continue` branches are sequential, so the added-line branch is
reachable only for lines that are neither a `+++ ` marker nor contain a
hunk-header match (the code's redundant re-test of the `+++ ` marker
inside the third branch is implied by the chain). -/
def diffStep (moduleName : Str) (st : DiffState) (line : Str) : DiffState :=
  if leadsWith plusMarker line then
    match goFields line with
    | _ :: path :: _ =>
      let path2 := match stripPre bSlashTag path with | some r => r | none => path
      { st with currentFile := goJoin moduleName path2 }
    | _ => st
  else
    match findHunk line with
    | some ds => { st with plusStartLine := goAtoiDigitsClip ds }
    | none =>
      if leadsWith ['+'] line then
        if st.currentFile = [] then st
        else if hasInfixStr testTag st.currentFile then st
        else if ¬ endsIn goExt st.currentFile then st
        else
          { st with
            NewLines := addNewLine st.NewLines st.currentFile st.plusStartLine,
            plusStartLine := st.plusStartLine + 1 }
      else st

/-- parseDiffFile (logic.go): fold the state machine over the lines.  Like
parseCoverFile, its only Go error source is I/O. -/
def parseDiffFile (diffText moduleName : Str) : DiffData :=
  ⟨((goLines diffText).foldl (diffStep moduleName) ⟨[], 0, []⟩).NewLines⟩

/-- The combined result of os.Stat and parser.ParseFile for one path:
stat failure, a directory, or a file whose declaration spans either fail
to parse (`none`) or are the listed (start, end) line pairs. -/
inductive FileStat where
  | statError
  | dir
  | file (decls : Option (List (Int × Int)))
  deriving DecidableEq

/-- `Functions[path] = append(Functions[path], span)` on the model. -/
def appendFunc : List (Str × List (Int × Int)) → Str → (Int × Int) → List (Str × List (Int × Int))
  | [], f, sp => [(f, [sp])]
  | e :: rest, f, sp =>
    if e.1 = f then (e.1, e.2 ++ [sp]) :: rest else e :: appendFunc rest f sp

/-- parseGoFiles (logic.go): for each candidate file, skip on stat error,
directory, missing `.go` suffix or parse failure; otherwise record each
top-level declaration span with its final line excluded when the span
covers more than one line.  The Go error return is always nil. -/
def parseGoFiles (fileSys : Str → FileStat) (rootDir : Str) (files : List Str) : FuncLines :=
  ⟨files.foldl (fun acc relPath =>
    let fullPath := goJoin rootDir relPath
    match fileSys fullPath with
    | .statError => acc
    | .dir => acc
    | .file parsed =>
      if ¬ endsIn goExt fullPath then acc
      else
        match parsed with
        | none => acc
        | some decls =>
          decls.foldl (fun a sp =>
            appendFunc a relPath (sp.1, if sp.2 > sp.1 then sp.2 - 1 else sp.2)) acc) []⟩

/-- Association-list lookup mirroring `ranges, exists := Functions[file]`. -/
def lookupFuncs : List (Str × List (Int × Int)) → Str → Option (List (Int × Int))
  | [], _ => none
  | e :: rest, f => if e.1 = f then some e.2 else lookupFuncs rest f

/-- isLineInFunctions (logic.go). -/
def isLineInFunctions (file : Str) (line : Int) (funcLines : FuncLines) : Bool :=
  match lookupFuncs funcLines.Functions file with
  | none => false
  | some ranges => ranges.any (fun r => decide (line ≥ r.1) && decide (line ≤ r.2))

/-- Tail of GroupLinesIntoRanges: `ranges` already emitted, `[start, e]`
open, remaining input still to scan. -/
def groupGo (ranges : List (Int × Int)) (start e : Int) : List Int → List (Int × Int)
  | [] => ranges ++ [(start, e)]
  | l :: ls =>
    if l = e + 1 then groupGo ranges start l ls
    else groupGo (ranges ++ [(start, e)]) l l ls

/-- GroupLinesIntoRanges (logic.go). -/
def GroupLinesIntoRanges (lines : List Int) : List (Int × Int) :=
  match lines with
  | [] => []
  | l0 :: rest => groupGo [] l0 l0 rest

/-- The `HasPrefix`-guarded `TrimPrefix` applied to diff map keys in
RunDiffCoverage (runner.go). -/
def trimModule (moduleName f : Str) : Str :=
  match stripPre (moduleName ++ ['/']) f with
  | some r => r
  | none => f

/-- `uncoveredLinesMap[relFile] = append(uncoveredLinesMap[relFile], line)`. -/
def appendUncovered : List (Str × List Int) → Str → Int → List (Str × List Int)
  | [], f, n => [(f, [n])]
  | e :: rest, f, n =>
    if e.1 = f then (e.1, e.2 ++ [n]) :: rest else e :: appendUncovered rest f n

/-- Body of the inner correlation loop of RunDiffCoverage (runner.go),
acting on the accumulator (totalNewLines, coveredNewLines, uncovered). -/
def correlateLine (coverage : CoverageData) (funcLines : FuncLines) (relFile : Str)
    (acc : Nat × Nat × List (Str × List Int)) (line : Int) : Nat × Nat × List (Str × List Int) :=
  if ¬ isLineInFunctions relFile line funcLines then acc
  else if coverage.CoveredLines relFile line then (acc.1 + 1, acc.2.1 + 1, acc.2.2)
  else (acc.1 + 1, acc.2.1, appendUncovered acc.2.2 relFile line)

/-- The double correlation loop of RunDiffCoverage: totals and the raw
(unsorted) uncovered map.  The counters and the per-file sorted lists are
iteration-order independent, so the insertion-order association list
computes the same result as Go's unordered map traversal. -/
def correlate (coverage : CoverageData) (newLines : List (Str × List Int)) (moduleName : Str)
    (funcLines : FuncLines) : Nat × Nat × List (Str × List Int) :=
  newLines.foldl (fun acc entry =>
    entry.2.foldl (correlateLine coverage funcLines (trimModule moduleName entry.1)) acc)
    (0, 0, [])

/-- sort.Ints: ascending order. -/
def sortInts (l : List Int) : List Int := List.insertionSort (· ≤ ·) l

def goModErr : Str := "error parsing go.mod".data

def belowErr : Str := "coverage is below the minimum required".data

/-- RunDiffCoverage (runner.go).  The Go triple (float64, map, error) is
returned in full on every path; float64 is modelled by ℚ, the error by an
optional message.  parseCoverFile/parseDiffFile/parseGoFiles cannot fail
on in-memory inputs, so of the four stage-error checks only the go.mod
one is live in the text model. -/
def RunDiffCoverage (fileSys : Str → FileStat) (goModText coverText diffText sourceRoot : Str)
    (minCoverage : ℚ) : ℚ × List (Str × List Int) × Option Str :=
  match parseGoMod goModText with
  | none => (0, [], some goModErr)
  | some moduleName =>
    let coverageData := parseCoverFile coverText moduleName
    let diffData := parseDiffFile diffText moduleName
    let filesToAnalyze := diffData.NewLines.map (fun e => trimModule moduleName e.1)
    if filesToAnalyze = [] then (100, [], none)
    else
      let funcLines := parseGoFiles fileSys sourceRoot filesToAnalyze
      let tri := correlate coverageData diffData.NewLines moduleName funcLines
      let uncoveredLinesMap := tri.2.2.map (fun e => (e.1, sortInts e.2))
      if tri.1 = 0 then (100, uncoveredLinesMap, none)
      else
        let coveragePercent : ℚ := 100 * (tri.2.1 : ℚ) / (tri.1 : ℚ)
        if coveragePercent < minCoverage then (coveragePercent, uncoveredLinesMap, some belowErr)
        else (coveragePercent, uncoveredLinesMap, none)

/-- The successful-parse view of one coverage-profile line: the stage
cascade of parseCoverFile with `none` for every skip (`continue`) reason —
mode tag, field count, colon split, module prefix, hit-count parse, comma
split, dot splits, line-number parses.  Proven equivalent to `coverStep`
below; it names the retained entry (relPath, hitCount, startLine, endLine). -/
def coverLineParse (moduleName line : Str) : Option (Str × Int × Int × Int) :=
  if leadsWith modeTag line then none
  else
    match splitCh ' ' line with
    | [fileRange, _, coverageCountStr] =>
      match splitCh ':' fileRange with
      | [absPath, rangePart] =>
        match stripPre (moduleName ++ ['/']) absPath with
        | none => none
        | some relPath =>
          match goAtoi coverageCountStr with
          | none => none
          | some coverageCount =>
            match splitCh ',' rangePart with
            | [rangeStart, rangeEnd] =>
              match splitCh '.' rangeStart, splitCh '.' rangeEnd with
              | [startStr, _], [endStr, _] =>
                match goAtoi startStr, goAtoi endStr with
                | some startLine, some endLine =>
                  some (relPath, coverageCount, startLine, endLine)
                | _, _ => none
              | _, _ => none
            | _ => none
      | _ => none
    | _ => none

/-- Membership in the association-list model of `map[string]map[int]bool`. -/
def memNewLine (m : List (Str × List Int)) (f : Str) (n : Int) : Bool :=
  match m with
  | [] => false
  | e :: rest => if e.1 = f then decide (n ∈ e.2) else memNewLine rest f n

/-- The integers of the closed interval [a, b], in order. -/
def intRange (a b : Int) : List Int := (List.range (b + 1 - a).toNat).map (fun (i : Nat) => a + (i : Int))

/-- Concatenate the integers of a list of closed intervals, in order. -/
def flattenRanges (rs : List (Int × Int)) : List Int :=
  (rs.map (fun r => intRange r.1 r.2)).flatten

/-- Every interval stored in a Functions map respects start ≤ end. -/
def rangesWF (m : List (Str × List (Int × Int))) : Prop :=
  ∀ e ∈ m, ∀ r ∈ e.2, r.1 ≤ r.2

/-- The (totalNewLines, coveredNewLines, uncovered) triple RunDiffCoverage
computes after a successful module parse, named for use in statements:
correlate applied to the parsed profile, the parsed diff and the
function ranges of the analyzed files. -/
def runTriple (fileSys : Str → FileStat) (coverText diffText sourceRoot moduleName : Str) :
    Nat × Nat × List (Str × List Int) :=
  correlate (parseCoverFile coverText moduleName) (parseDiffFile diffText moduleName).NewLines
    moduleName
    (parseGoFiles fileSys sourceRoot
      ((parseDiffFile diffText moduleName).NewLines.map (fun e => trimModule moduleName e.1)))

/- Concrete inputs used by the witness and counterexample theorems. -/

def mW : Str := "m".data

def gmW : Str := "module m\n".data

def rootW : Str := "root".data

def fileW : Str := "a.go".data

def fullW : Str := "root/a.go".data

/-- A source tree with one parseable file whose two declarations span
lines 1–6 and 2–2. -/
def fsW : Str → FileStat :=
  fun p => if p = fullW then FileStat.file (some [(1, 6), (2, 2)]) else FileStat.statError

def covW : Str := "mode: set\nm/a.go:3.1,3.9 1 1\n".data

def covZeroW : Str := "mode: set\nm/a.go:2.1,4.9 1 0\n".data

def diffW : Str := "+++ b/a.go\n@@ -2,0 +3 @@\n+x\n".data

def diffOutW : Str := "+++ b/a.go\n@@ -19,0 +20 @@\n+y\n".data

def emptyStr : Str := []

def c5lineW : Str := "m/a.go:3.1,5.9 1 2".data

def c7lineW : Str := "m/a.go:x.1,5.9 1 2".data

def c4lineW : Str := "+ @@ -1 +2 @@".data

def c4fileW : Str := "m/a.go".data

def c4headerW : Str := "@@ -1 +7 @@".data

def c4linesW : List Str := ["+a".data, "+b".data]

/- ================================================================== -/
/- Helper lemmas                                                      -/
/- ================================================================== -/

theorem stripPre_sound (p : Str) : ∀ s r, stripPre p s = some r → s = p ++ r := by
  induction p with
  | nil =>
    intro s r h
    simp [stripPre] at h
    simp [h]
  | cons c cs ih =>
    intro s r h
    cases s with
    | nil => simp [stripPre] at h
    | cons d ds =>
      unfold stripPre at h
      split at h
      · rename_i hc
        subst hc
        simpa using ih ds r h
      · exact absurd h (by simp)

theorem intRange_self (a : Int) : intRange a a = [a] := by
  unfold intRange
  have h1 : (a + 1 - a).toNat = 1 := by omega
  rw [h1]
  simp [List.range_succ]

theorem intRange_snoc (a b : Int) (h : a ≤ b + 1) :
    intRange a (b + 1) = intRange a b ++ [b + 1] := by
  unfold intRange
  have h1 : (b + 1 + 1 - a).toNat = (b + 1 - a).toNat + 1 := by omega
  have h2 : a + ((b + 1 - a).toNat : Int) = b + 1 := by omega
  rw [h1, List.range_succ, List.map_append]
  simp only [List.map_cons, List.map_nil]
  rw [h2]

theorem flattenRanges_append (xs ys : List (Int × Int)) :
    flattenRanges (xs ++ ys) = flattenRanges xs ++ flattenRanges ys := by
  unfold flattenRanges
  rw [List.map_append, List.flatten_append]

theorem flattenRanges_single (a b : Int) : flattenRanges [(a, b)] = intRange a b := by
  simp [flattenRanges]

theorem groupGo_flatten (rest : List Int) :
    ∀ (ranges : List (Int × Int)) (start e : Int), start ≤ e →
      List.Chain' (· < ·) (e :: rest) →
      flattenRanges (groupGo ranges start e rest) = flattenRanges ranges ++ intRange start e ++ rest := by
  induction rest with
  | nil =>
    intro ranges start e hse hchain
    unfold groupGo
    rw [flattenRanges_append, flattenRanges_single]
    simp
  | cons l ls ih =>
    intro ranges start e hse hchain
    have hel : e < l := (List.chain'_cons.mp hchain).1
    have htail : List.Chain' (· < ·) (l :: ls) := (List.chain'_cons.mp hchain).2
    unfold groupGo
    by_cases hl : l = e + 1
    · rw [if_pos hl]
      rw [ih ranges start l (by omega) htail]
      subst hl
      rw [intRange_snoc start e (by omega)]
      simp
    · rw [if_neg hl]
      rw [ih (ranges ++ [(start, e)]) l l le_rfl htail]
      rw [flattenRanges_append, flattenRanges_single, intRange_self]
      simp

theorem groupGo_gaps (rest : List Int) :
    ∀ (ranges : List (Int × Int)) (start e : Int), start ≤ e →
      List.Chain' (· < ·) (e :: rest) →
      (∀ x : Int, List.Chain' (fun r s : Int × Int => r.2 + 1 < s.1) (ranges ++ [(start, x)])) →
      List.Chain' (fun r s : Int × Int => r.2 + 1 < s.1) (groupGo ranges start e rest) := by
  induction rest with
  | nil =>
    intro ranges start e hse hchain hr
    exact hr e
  | cons l ls ih =>
    intro ranges start e hse hchain hr
    have hel : e < l := (List.chain'_cons.mp hchain).1
    have htail : List.Chain' (· < ·) (l :: ls) := (List.chain'_cons.mp hchain).2
    unfold groupGo
    by_cases hl : l = e + 1
    · rw [if_pos hl]
      exact ih ranges start l (by omega) htail hr
    · rw [if_neg hl]
      apply ih (ranges ++ [(start, e)]) l l le_rfl htail
      intro x
      rw [List.chain'_append]
      refine ⟨hr e, List.chain'_singleton _, ?_⟩
      intro u hu v hv
      rw [List.getLast?_concat] at hu
      simp [Option.mem_def] at hu hv
      subst hu
      subst hv
      show e + 1 < l
      omega

/- ================================================================== -/
/- C6                                                                 -/
/- ================================================================== -/

/-- C6: For every ascending list of distinct positive integers,
concatenating the integers of the closed intervals produced by
GroupLinesIntoRanges, in order, reproduces the list exactly; consecutive
integers are merged into one interval (adjacent output intervals always
leave a gap of at least one integer); and the empty input yields the
empty output. -/
theorem C6_group_lines_into_ranges :
    (∀ L : List Int, List.Chain' (· < ·) L → (∀ x ∈ L, 0 < x) →
      flattenRanges (GroupLinesIntoRanges L) = L ∧
        List.Chain' (fun r s : Int × Int => r.2 + 1 < s.1) (GroupLinesIntoRanges L)) ∧
    GroupLinesIntoRanges [] = [] := by
  constructor
  · intro L hchain hpos
    match L with
    | [] => constructor <;> simp [GroupLinesIntoRanges, flattenRanges]
    | l0 :: rest =>
      unfold GroupLinesIntoRanges
      constructor
      · rw [groupGo_flatten rest [] l0 l0 le_rfl hchain]
        rw [intRange_self]
        simp [flattenRanges]
      · apply groupGo_gaps rest [] l0 l0 le_rfl hchain
        intro x
        simp
  · rfl

/-- Witness for C6 at the concrete input [1, 2, 5]. -/
theorem C6_witness :
    (List.Chain' (· < ·) ([1, 2, 5] : List Int) ∧ ∀ x ∈ ([1, 2, 5] : List Int), 0 < x) ∧
      flattenRanges (GroupLinesIntoRanges [1, 2, 5]) = [1, 2, 5] :=
  ⟨⟨by simp [List.chain'_cons], by decide⟩,
    (C6_group_lines_into_ranges.1 [1, 2, 5] (by simp [List.chain'_cons]) (by decide)).1⟩

/-- Bridge: one scanner iteration of parseCoverFile equals acting on the
outcome of the staged line parse. -/
theorem coverStep_eq_parse (moduleName : Str) (cov : Str → Int → Bool) (line : Str) :
    coverStep moduleName cov line =
      match coverLineParse moduleName line with
      | none => cov
      | some q => if 0 < q.2.1 then markRange cov q.1 q.2.2.1 q.2.2.2 else cov := by
  unfold coverStep coverLineParse
  repeat' split <;> try rfl

/- ================================================================== -/
/- C5                                                                 -/
/- ================================================================== -/

/-- C5: for a retained coverage-profile entry (a line whose staged parse
succeeds with relative path `relPath`, hit count `cnt` and line range
[s, e]), the scanner marks every line of [s, e] covered for `relPath`
when 0 < cnt, and marks nothing when cnt ≤ 0; all other files and lines
keep their previous coverage. -/
theorem C5_hitcount_marks (moduleName : Str) (cov : Str → Int → Bool) (line relPath : Str)
    (cnt s e : Int)
    (h : coverLineParse moduleName line = some (relPath, cnt, s, e)) :
    (0 < cnt → ∀ (p : Str) (ln : Int), coverStep moduleName cov line p ln =
        if p = relPath ∧ s ≤ ln ∧ ln ≤ e then true else cov p ln) ∧
    (cnt ≤ 0 → coverStep moduleName cov line = cov) := by
  rw [coverStep_eq_parse, h]
  constructor
  · intro hc p ln
    show (if (0 : Int) < cnt then markRange cov relPath s e else cov) p ln =
      if p = relPath ∧ s ≤ ln ∧ ln ≤ e then true else cov p ln
    rw [if_pos hc]
    rfl
  · intro hc
    show (if (0 : Int) < cnt then markRange cov relPath s e else cov) = cov
    rw [if_neg (not_lt.mpr hc)]

/-- Witness for C5: the entry `m/a.go:3.1,5.9 1 2` has hit count 2 > 0 and
marks line 4 of a.go covered. -/
theorem C5_witness :
    coverLineParse mW c5lineW = some (fileW, 2, 3, 5) ∧
      coverStep mW (fun _ _ => false) c5lineW fileW 4 = true := by
  refine ⟨by decide, ?_⟩
  rw [(C5_hitcount_marks mW (fun _ _ => false) c5lineW fileW 2 3 5 (by decide)).1 (by decide) fileW 4]
  decide

/- ================================================================== -/
/- C7                                                                 -/
/- ================================================================== -/

/-- C7: a coverage-profile line failing the 3-field split, the colon
split, the comma split, the dot split or integer parsing at any stage
(all the `none` cases of `coverLineParse`) leaves the accumulated
profile untouched, and the whole parse equals the parse of only the
retained lines — malformed lines never affect other lines, and the text
model of parseCoverFile has no error outcome at all (its Go error return
is I/O-only). -/
theorem C7_malformed_lines_skipped :
    (∀ (moduleName : Str) (cov : Str → Int → Bool) (line : Str),
      coverLineParse moduleName line = none → coverStep moduleName cov line = cov) ∧
    (∀ coverText moduleName : Str,
      parseCoverFile coverText moduleName =
        ⟨((goLines coverText).filter (fun l => (coverLineParse moduleName l).isSome)).foldl
          (coverStep moduleName) (fun _ _ => false)⟩) := by
  have hid : ∀ (moduleName : Str) (cov : Str → Int → Bool) (line : Str),
      coverLineParse moduleName line = none → coverStep moduleName cov line = cov := by
    intro m cov line h
    rw [coverStep_eq_parse, h]
  refine ⟨hid, ?_⟩
  intro coverText moduleName
  unfold parseCoverFile
  congr 1
  generalize (fun _ _ => false : Str → Int → Bool) = init
  induction (goLines coverText) generalizing init with
  | nil => rfl
  | cons l t ih =>
    rw [List.filter_cons]
    by_cases h : (coverLineParse moduleName l).isSome = true
    · rw [if_pos h, List.foldl_cons, List.foldl_cons]
      exact ih (coverStep moduleName init l)
    · rw [if_neg h, List.foldl_cons]
      rw [hid moduleName init l (Option.not_isSome_iff_eq_none.mp h)]
      exact ih init

/-- Witness for C7: a line whose start-line field fails integer parsing is
skipped without modifying the profile. -/
theorem C7_witness :
    coverLineParse mW c7lineW = none ∧
      coverStep mW (parseCoverFile covW mW).CoveredLines c7lineW =
        (parseCoverFile covW mW).CoveredLines :=
  ⟨by decide, C7_malformed_lines_skipped.1 mW _ c7lineW (by decide)⟩

/-- Inversion of a successful coverage-line parse: the retained key is the
path field with the module prefix stripped, i.e. the path field is
literally `moduleName ++ "/" ++ relPath`. -/
theorem coverLineParse_key (m line relPath : Str) (cnt s e : Int)
    (h : coverLineParse m line = some (relPath, cnt, s, e)) :
    ∃ fileRange mid cntStr rangePart : Str,
      splitCh ' ' line = [fileRange, mid, cntStr] ∧
      splitCh ':' fileRange = [m ++ '/' :: relPath, rangePart] := by
  unfold coverLineParse at h
  split at h
  · exact Option.noConfusion h
  split at h <;> try exact Option.noConfusion h
  rename_i fileRange mid cntStr hsp1
  split at h <;> try exact Option.noConfusion h
  rename_i absPath rangePart hsp2
  split at h <;> try exact Option.noConfusion h
  rename_i relPath2 hstrip
  split at h <;> try exact Option.noConfusion h
  rename_i cnt2 hcnt
  split at h <;> try exact Option.noConfusion h
  rename_i rs re hsp3
  split at h <;> try exact Option.noConfusion h
  rename_i sl sc el ec hsp4 hsp5
  split at h <;> try exact Option.noConfusion h
  rename_i s2 e2 hs2 he2
  simp only [Option.some.injEq, Prod.mk.injEq] at h
  obtain ⟨h1, h2, h3, h4⟩ := h
  refine ⟨fileRange, mid, cntStr, rangePart, hsp1, ?_⟩
  rw [hsp2]
  have habs : absPath = (m ++ ['/']) ++ relPath2 :=
    stripPre_sound (m ++ ['/']) absPath relPath2 hstrip
  rw [habs, h1]
  simp

/-- The Boolean origin predicate used by C8: some line of the text parses
to a retained entry for file `p` whose positive-hit range contains `ln`. -/
def coversAt (moduleName : Str) (p : Str) (ln : Int) (line : Str) : Bool :=
  match coverLineParse moduleName line with
  | some q => decide (q.1 = p) && decide (0 < q.2.1) && decide (q.2.2.1 ≤ ln) && decide (ln ≤ q.2.2.2)
  | none => false

/-- Fold origin lemma: a covered point of the accumulated profile either
was covered in the initial accumulator or originates from some retained
line of the scanned list. -/
theorem coverFold_origin (moduleName : Str) (lines : List Str) :
    ∀ (init : Str → Int → Bool) (p : Str) (ln : Int),
      (lines.foldl (coverStep moduleName) init) p ln = true →
      init p ln = true ∨ lines.any (coversAt moduleName p ln) = true := by
  induction lines with
  | nil => intro init p ln h; exact Or.inl h
  | cons l t ih =>
    intro init p ln h
    rw [List.foldl_cons] at h
    rcases ih (coverStep moduleName init l) p ln h with h1 | h2
    · rw [coverStep_eq_parse] at h1
      rcases hp : coverLineParse moduleName l with _ | q
      · rw [hp] at h1
        exact Or.inl h1
      · rw [hp] at h1
        replace h1 : (if (0 : Int) < q.2.1 then markRange init q.1 q.2.2.1 q.2.2.2 else init)
            p ln = true := h1
        by_cases hc : (0 : Int) < q.2.1
        · rw [if_pos hc] at h1
          unfold markRange at h1
          by_cases hm : p = q.1 ∧ q.2.2.1 ≤ ln ∧ ln ≤ q.2.2.2
          · refine Or.inr ?_
            rw [List.any_cons]
            apply Bool.or_eq_true_iff.mpr
            refine Or.inl ?_
            unfold coversAt
            rw [hp]
            simp [hm.1, hc, hm.2.1, hm.2.2]
          · rw [if_neg hm] at h1
            exact Or.inl h1
        · rw [if_neg hc] at h1
          exact Or.inl h1
    · refine Or.inr ?_
      rw [List.any_cons]
      exact Bool.or_eq_true_iff.mpr (Or.inr h2)

/- ================================================================== -/
/- C8                                                                 -/
/- ================================================================== -/

/-- C8: the coverage parser retains an entry only when its path field
begins with the module identifier followed by a slash, and stores it
under the key obtained by stripping that prefix (the path field equals
`moduleName ++ "/" ++ key`); consequently every covered point of the
profile originates from such a retained line, so vendored or
out-of-module paths never appear. -/
theorem C8_module_prefix_retention :
    (∀ (moduleName line relPath : Str) (cnt s e : Int),
      coverLineParse moduleName line = some (relPath, cnt, s, e) →
      ∃ fileRange mid cntStr rangePart : Str,
        splitCh ' ' line = [fileRange, mid, cntStr] ∧
        splitCh ':' fileRange = [moduleName ++ '/' :: relPath, rangePart]) ∧
    (∀ (moduleName line fileRange mid cntStr absPath rangePart relPath rs re sl sc el ec : Str)
        (cnt s e : Int),
      leadsWith modeTag line = false →
      splitCh ' ' line = [fileRange, mid, cntStr] →
      splitCh ':' fileRange = [absPath, rangePart] →
      stripPre (moduleName ++ ['/']) absPath = some relPath →
      goAtoi cntStr = some cnt →
      splitCh ',' rangePart = [rs, re] →
      splitCh '.' rs = [sl, sc] → splitCh '.' re = [el, ec] →
      goAtoi sl = some s → goAtoi el = some e →
      coverLineParse moduleName line = some (relPath, cnt, s, e)) ∧
    (∀ (coverText moduleName p : Str) (ln : Int),
      (parseCoverFile coverText moduleName).CoveredLines p ln = true →
      (goLines coverText).any (coversAt moduleName p ln) = true) := by
  refine ⟨coverLineParse_key, ?_, ?_⟩
  · intro moduleName line fileRange mid cntStr absPath rangePart relPath rs re sl sc el ec
      cnt s e hmode h1 h2 h3 h4 h5 h6 h7 h8 h9
    unfold coverLineParse
    simp only [hmode, h1, h2, h3, h4, h5, h6, h7, h8, h9, Bool.false_eq_true, if_false]
  · intro coverText moduleName p ln h
    have := coverFold_origin moduleName (goLines coverText) (fun _ _ => false) p ln h
    rcases this with h1 | h2
    · exact absurd h1 (by simp)
    · exact h2

/-- Witness for C8: line 3 of a.go is covered by the profile `covW`, and
this coverage indeed originates from a retained `m/`-prefixed line. -/
theorem C8_witness :
    (parseCoverFile covW mW).CoveredLines fileW 3 = true ∧
      (goLines covW).any (coversAt mW fileW 3) = true :=
  ⟨by decide, C8_module_prefix_retention.2.2 covW mW fileW 3 (by decide)⟩

/- ================================================================== -/
/- C4                                                                 -/
/- ================================================================== -/

/-- Counterexample to C4 as stated: the scanned line `+ @@ -1 +2 @@`
begins with `+`, is not a `+++ ` new-file marker, and the current file
`m/a.go` is a non-test `.go` file, yet the parser does NOT record the
cursor value 5 for it — the line also matches the (unanchored)
hunk-header pattern, which is tested first, so the cursor is reset to 2
and nothing is recorded. -/
theorem C4_counterexample :
    leadsWith ['+'] c4lineW = true ∧ leadsWith plusMarker c4lineW = false ∧
    c4fileW ≠ [] ∧ hasInfixStr testTag c4fileW = false ∧ endsIn goExt c4fileW = true ∧
    diffStep mW ⟨c4fileW, 5, []⟩ c4lineW = ⟨c4fileW, 2, []⟩ := by
  decide

/-- The added-line branch of the diff scanner, isolated: on a `+` line
that is neither a new-file marker nor a hunk-header match, the state
changes exactly by the guarded record-and-increment. -/
theorem diffStep_plus (moduleName : Str) (st : DiffState) (line : Str)
    (hplus : leadsWith ['+'] line = true) (hmk : leadsWith plusMarker line = false)
    (hhk : findHunk line = none) :
    diffStep moduleName st line =
      if st.currentFile = [] then st
      else if hasInfixStr testTag st.currentFile = true then st
      else if endsIn goExt st.currentFile = false then st
      else { st with
             NewLines := addNewLine st.NewLines st.currentFile st.plusStartLine,
             plusStartLine := st.plusStartLine + 1 } := by
  unfold diffStep
  rw [hhk, hmk]
  simp only [Bool.false_eq_true, if_false, hplus, if_true]
  by_cases h1 : st.currentFile = []
  · rw [if_pos h1, if_pos h1]
  · rw [if_neg h1, if_neg h1]
    by_cases h2 : hasInfixStr testTag st.currentFile = true
    · rw [if_pos h2, if_pos h2]
    · rw [if_neg h2, if_neg h2]
      by_cases h3 : endsIn goExt st.currentFile = true
      · rw [if_neg (by simp [h3]), if_neg (by simp [h3])]
      · rw [if_pos (by simp at h3 ⊢; exact h3), if_pos (by simp at h3 ⊢; exact h3)]

theorem memNewLine_addNewLine_self (m : List (Str × List Int)) (f : Str) (n : Int) :
    memNewLine (addNewLine m f n) f n = true := by
  induction m with
  | nil => simp [addNewLine, memNewLine]
  | cons e rest ih =>
    unfold addNewLine
    by_cases h : e.1 = f
    · rw [if_pos h]
      unfold memNewLine
      rw [if_pos h]
      by_cases hn : n ∈ e.2
      · rw [if_pos hn]
        simpa using hn
      · rw [if_neg hn]
        simp
    · rw [if_neg h]
      unfold memNewLine
      rw [if_neg h]
      exact ih

theorem memNewLine_addNewLine_mono (m : List (Str × List Int)) (f g : Str) (n x : Int)
    (h : memNewLine m f x = true) : memNewLine (addNewLine m g n) f x = true := by
  induction m with
  | nil => simp [memNewLine] at h
  | cons e rest ih =>
    unfold addNewLine
    by_cases hg : e.1 = g
    · rw [if_pos hg]
      unfold memNewLine at h ⊢
      by_cases hf : e.1 = f
      · rw [if_pos hf] at h ⊢
        by_cases hn : n ∈ e.2
        · rw [if_pos hn]
          exact h
        · rw [if_neg hn]
          simp at h ⊢
          exact Or.inl h
      · rw [if_neg hf] at h ⊢
        exact h
    · rw [if_neg hg]
      unfold memNewLine at h ⊢
      by_cases hf : e.1 = f
      · rw [if_pos hf] at h ⊢
        exact h
      · rw [if_neg hf] at h ⊢
        exact ih h

/-- Folding the diff scanner over a run of recording `+` lines (no marker,
no hunk match) with a valid current file keeps the file, advances the
cursor by the number of lines, preserves recorded lines, and records the
j-th line of the run at cursor + j. -/
theorem diffFold_record (moduleName : Str) (lines : List Str) :
    ∀ st : DiffState,
      (∀ l ∈ lines, leadsWith ['+'] l = true ∧ leadsWith plusMarker l = false ∧
        findHunk l = none) →
      st.currentFile ≠ [] → hasInfixStr testTag st.currentFile = false →
      endsIn goExt st.currentFile = true →
      (lines.foldl (diffStep moduleName) st).currentFile = st.currentFile ∧
      (lines.foldl (diffStep moduleName) st).plusStartLine =
        st.plusStartLine + lines.length ∧
      (∀ x : Int, memNewLine st.NewLines st.currentFile x = true →
        memNewLine (lines.foldl (diffStep moduleName) st).NewLines st.currentFile x = true) ∧
      (∀ j : Nat, j < lines.length →
        memNewLine (lines.foldl (diffStep moduleName) st).NewLines st.currentFile
          (st.plusStartLine + j) = true) := by
  induction lines with
  | nil =>
    intro st hl hf ht hg
    refine ⟨rfl, by simp, fun x hx => hx, ?_⟩
    intro j hj
    exact absurd hj (by simp)
  | cons l ls ih =>
    intro st hl hf ht hg
    obtain ⟨hplus, hmarker, hhunk⟩ := hl l (by simp)
    have hstep : diffStep moduleName st l =
        { st with
          NewLines := addNewLine st.NewLines st.currentFile st.plusStartLine,
          plusStartLine := st.plusStartLine + 1 } := by
      rw [diffStep_plus moduleName st l hplus hmarker hhunk]
      rw [if_neg hf, if_neg (by simp [ht]), if_neg (by simp [hg])]
    have h1 := ih { st with
        NewLines := addNewLine st.NewLines st.currentFile st.plusStartLine,
        plusStartLine := st.plusStartLine + 1 }
      (fun l2 hl2 => hl l2 (by simp [hl2])) hf ht hg
    obtain ⟨hc1, hc2, hc3, hc4⟩ := h1
    rw [List.foldl_cons, hstep]
    refine ⟨hc1, ?_, ?_, ?_⟩
    · rw [hc2]
      simp
      omega
    · intro x hx
      exact hc3 x (memNewLine_addNewLine_mono st.NewLines st.currentFile st.currentFile
        st.plusStartLine x hx)
    · intro j hj
      cases j with
      | zero =>
        have hself := memNewLine_addNewLine_self st.NewLines st.currentFile st.plusStartLine
        have := hc3 st.plusStartLine hself
        simpa using this
      | succ j2 =>
        have hj2 : j2 < ls.length := by simpa using Nat.lt_of_succ_lt_succ (by simpa using hj)
        have := hc4 j2 hj2
        have heq : st.plusStartLine + 1 + (j2 : Int) = st.plusStartLine + ((j2 + 1 : Nat) : Int) := by
          push_cast
          ring
        rw [show ((j2 + 1 : Nat) : Int) = (j2 : Int) + 1 by push_cast; ring]
        rw [show st.plusStartLine + ((j2 : Int) + 1) = st.plusStartLine + 1 + (j2 : Int) by ring]
        exact this

/-- C4 (amended): in the diff parser, for every scanned line that begins
with `+`, is not a `+++ ` new-file marker, AND does not contain a match
of the hunk-header pattern (the pattern is tested before the added-line
branch, which the original claim omitted): if currentFile is empty, or
denotes a test file, or lacks the .go extension, the line is ignored;
otherwise the cursor value nextAddedLine is recorded for currentFile and
the cursor is incremented by one — hence after a hunk header setting the
cursor to N, the k-th such recorded line of a run is recorded at line
number N + k - 1 (below: for each j < k, the (j+1)-st line is recorded
at N + j, and the cursor ends at N + k). -/
theorem C4_plus_line_recording :
    (∀ (moduleName : Str) (st : DiffState) (line : Str),
      leadsWith ['+'] line = true → leadsWith plusMarker line = false →
      findHunk line = none →
      ((st.currentFile = [] ∨ hasInfixStr testTag st.currentFile = true ∨
          endsIn goExt st.currentFile = false → diffStep moduleName st line = st) ∧
        (st.currentFile ≠ [] → hasInfixStr testTag st.currentFile = false →
          endsIn goExt st.currentFile = true →
          diffStep moduleName st line =
            { st with
              NewLines := addNewLine st.NewLines st.currentFile st.plusStartLine,
              plusStartLine := st.plusStartLine + 1 }))) ∧
    (∀ (moduleName : Str) (st : DiffState) (header : Str) (lines : List Str) (ds : Str),
      leadsWith plusMarker header = false → findHunk header = some ds →
      (∀ l ∈ lines, leadsWith ['+'] l = true ∧ leadsWith plusMarker l = false ∧
        findHunk l = none) →
      st.currentFile ≠ [] → hasInfixStr testTag st.currentFile = false →
      endsIn goExt st.currentFile = true →
      ((header :: lines).foldl (diffStep moduleName) st).currentFile = st.currentFile ∧
      ((header :: lines).foldl (diffStep moduleName) st).plusStartLine =
        goAtoiDigitsClip ds + lines.length ∧
      ∀ j : Nat, j < lines.length →
        memNewLine ((header :: lines).foldl (diffStep moduleName) st).NewLines
          st.currentFile (goAtoiDigitsClip ds + j) = true) := by
  constructor
  · intro moduleName st line hplus hmk hhk
    rw [diffStep_plus moduleName st line hplus hmk hhk]
    constructor
    · intro hcase
      rcases hcase with h1 | h2 | h3
      · rw [if_pos h1]
      · by_cases h1 : st.currentFile = []
        · rw [if_pos h1]
        · rw [if_neg h1, if_pos h2]
      · by_cases h1 : st.currentFile = []
        · rw [if_pos h1]
        · rw [if_neg h1]
          by_cases h2 : hasInfixStr testTag st.currentFile = true
          · rw [if_pos h2]
          · rw [if_neg h2, if_pos h3]
    · intro hf ht hg
      rw [if_neg hf, if_neg (by simp [ht]), if_neg (by simp [hg])]
  · intro moduleName st header lines ds hmk hhk hl hf ht hg
    have hstep : diffStep moduleName st header = { st with plusStartLine := goAtoiDigitsClip ds } := by
      unfold diffStep
      rw [hmk, hhk]
      simp
    rw [List.foldl_cons, hstep]
    have h1 := diffFold_record moduleName lines { st with plusStartLine := goAtoiDigitsClip ds }
      hl hf ht hg
    obtain ⟨hc1, hc2, hc3, hc4⟩ := h1
    exact ⟨hc1, hc2, hc4⟩

/-- Witness for C4 (amended): after the header `@@ -1 +7 @@` and the run
`+a`, `+b` with current file `m/a.go`, lines 7 and 8 are recorded and
the cursor ends at 9. -/
theorem C4_witness :
    ((c4headerW :: c4linesW).foldl (diffStep mW) ⟨c4fileW, 0, []⟩).currentFile = c4fileW ∧
    ((c4headerW :: c4linesW).foldl (diffStep mW) ⟨c4fileW, 0, []⟩).plusStartLine = 9 ∧
    memNewLine ((c4headerW :: c4linesW).foldl (diffStep mW) ⟨c4fileW, 0, []⟩).NewLines
      c4fileW 8 = true := by
  have h := C4_plus_line_recording.2 mW ⟨c4fileW, 0, []⟩ c4headerW c4linesW ("7".data)
    (by decide) (by decide) (by decide) (by decide) (by decide) (by decide)
  refine ⟨h.1, ?_, ?_⟩
  · rw [h.2.1]
    decide
  · have := h.2.2 1 (by decide)
    simpa using this

theorem appendFunc_wf (f : Str) (sp : Int × Int) (hsp : sp.1 ≤ sp.2) :
    ∀ m : List (Str × List (Int × Int)), rangesWF m → rangesWF (appendFunc m f sp) := by
  intro m
  induction m with
  | nil =>
    intro hm e he r hr
    simp [appendFunc] at he
    subst he
    simp at hr
    subst hr
    exact hsp
  | cons e0 rest ih =>
    intro hm e he r hr
    unfold appendFunc at he
    by_cases h : e0.1 = f
    · rw [if_pos h] at he
      rcases List.mem_cons.mp he with h1 | h2
      · subst h1
        rcases List.mem_append.mp hr with ha | hb
        · exact hm e0 (by simp) r ha
        · simp at hb
          subst hb
          exact hsp
      · exact hm e (by simp [h2]) r hr
    · rw [if_neg h] at he
      rcases List.mem_cons.mp he with h1 | h2
      · subst h1
        exact hm e (by simp) r hr
      · exact ih (fun e2 he2 r2 hr2 => hm e2 (by simp [he2]) r2 hr2) e h2 r hr

theorem foldSpans_wf (relPath : Str) :
    ∀ decls : List (Int × Int), (∀ sp ∈ decls, sp.1 ≤ sp.2) →
      ∀ acc, rangesWF acc →
        rangesWF (decls.foldl (fun a sp =>
          appendFunc a relPath (sp.1, if sp.2 > sp.1 then sp.2 - 1 else sp.2)) acc) := by
  intro decls
  induction decls with
  | nil => intro hd acc h; exact h
  | cons d t ih =>
    intro hd acc h
    rw [List.foldl_cons]
    apply ih (fun sp hs => hd sp (by simp [hs]))
    apply appendFunc_wf
    · have hdd := hd d (by simp)
      by_cases hgt : d.2 > d.1 <;> simp [hgt] <;> omega
    · exact h

theorem parseGoFilesAux_wf (fileSys : Str → FileStat) (rootDir : Str)
    (h : ∀ path spans, fileSys path = FileStat.file (some spans) → ∀ sp ∈ spans, sp.1 ≤ sp.2) :
    ∀ (files : List Str) (acc : List (Str × List (Int × Int))), rangesWF acc →
      rangesWF (files.foldl (fun acc relPath =>
        match fileSys (goJoin rootDir relPath) with
        | .statError => acc
        | .dir => acc
        | .file parsed =>
          if ¬ endsIn goExt (goJoin rootDir relPath) then acc
          else
            match parsed with
            | none => acc
            | some decls =>
              decls.foldl (fun a sp =>
                appendFunc a relPath (sp.1, if sp.2 > sp.1 then sp.2 - 1 else sp.2)) acc) acc) := by
  intro files
  induction files with
  | nil => intro acc ha; exact ha
  | cons f t ih =>
    intro acc ha
    rw [List.foldl_cons]
    apply ih
    split
    · exact ha
    · exact ha
    · rename_i parsed hfs
      split
      · exact ha
      · split
        · exact ha
        · rename_i decls2
          exact foldSpans_wf f decls2 (h (goJoin rootDir f) decls2 hfs) acc ha

theorem lookupFuncs_wf (f : Str) :
    ∀ m : List (Str × List (Int × Int)), rangesWF m →
      ∀ ranges, lookupFuncs m f = some ranges → ∀ r ∈ ranges, r.1 ≤ r.2 := by
  intro m
  induction m with
  | nil =>
    intro hm ranges hl
    simp [lookupFuncs] at hl
  | cons e rest ih =>
    intro hm ranges hl
    unfold lookupFuncs at hl
    by_cases h : e.1 = f
    · rw [if_pos h] at hl
      injection hl with hl
      subst hl
      exact fun r hr => hm e (by simp) r hr
    · rw [if_neg h] at hl
      exact ih (fun e2 he2 r2 hr2 => hm e2 (by simp [he2]) r2 hr2) ranges hl

/- ================================================================== -/
/- C9                                                                 -/
/- ================================================================== -/

/-- C9: assuming every declaration span delivered by the extractor
satisfies start ≤ end, every interval stored in FunctionRanges satisfies
start ≤ end, and the recorded interval for a span (s, e) with s ≤ e is
[s, e-1] when e > s and [s, s] when e = s. -/
theorem C9_function_ranges (fileSys : Str → FileStat) (rootDir : Str) (files : List Str)
    (h : ∀ path spans, fileSys path = FileStat.file (some spans) → ∀ sp ∈ spans, sp.1 ≤ sp.2) :
    (∀ (f : Str) (ranges : List (Int × Int)),
      lookupFuncs (parseGoFiles fileSys rootDir files).Functions f = some ranges →
      ∀ r ∈ ranges, r.1 ≤ r.2) ∧
    (∀ s e : Int, s ≤ e →
      (s, if e > s then e - 1 else e) = if e > s then (s, e - 1) else (s, s)) := by
  constructor
  · intro f ranges hl
    exact lookupFuncs_wf f (parseGoFiles fileSys rootDir files).Functions
      (parseGoFilesAux_wf fileSys rootDir h files [] (by intro e he; simp at he)) ranges hl
  · intro s e hse
    by_cases hgt : e > s
    · simp [hgt]
    · have hes : e = s := by omega
      simp [hgt, hes]

/-- Witness for C9: the oracle file with spans (1, 6) and (2, 2) yields the
stored intervals [(1, 5), (2, 2)], and the first satisfies 1 ≤ 5. -/
theorem C9_witness :
    lookupFuncs (parseGoFiles fsW rootW [fileW]).Functions fileW = some [(1, 5), (2, 2)] ∧
      ((1 : Int), (5 : Int)).1 ≤ ((1 : Int), (5 : Int)).2 := by
  have h9 : ∀ path spans, fsW path = FileStat.file (some spans) → ∀ sp ∈ spans, sp.1 ≤ sp.2 := by
    intro path spans hp
    unfold fsW at hp
    split at hp
    · cases hp
      decide
    · exact FileStat.noConfusion hp
  refine ⟨by decide, ?_⟩
  exact (C9_function_ranges fsW rootW [fileW] h9).1 fileW [(1, 5), (2, 2)] (by decide)
    (1, 5) (by simp)

/-- Branch structure of RunDiffCoverage after a successful module parse,
with the correlation triple named. -/
theorem RunDiffCoverage_eq (fileSys : Str → FileStat)
    (goModText coverText diffText sourceRoot : Str) (minCoverage : ℚ) (moduleName : Str)
    (hm : parseGoMod goModText = some moduleName) :
    RunDiffCoverage fileSys goModText coverText diffText sourceRoot minCoverage =
      (if (parseDiffFile diffText moduleName).NewLines.map (fun e => trimModule moduleName e.1)
          = [] then ((100 : ℚ), ([] : List (Str × List Int)), (none : Option Str))
      else if (runTriple fileSys coverText diffText sourceRoot moduleName).1 = 0 then
        (100, (runTriple fileSys coverText diffText sourceRoot moduleName).2.2.map
          (fun e => (e.1, sortInts e.2)), none)
      else if 100 * ((runTriple fileSys coverText diffText sourceRoot moduleName).2.1 : ℚ) /
          ((runTriple fileSys coverText diffText sourceRoot moduleName).1 : ℚ) < minCoverage then
        (100 * ((runTriple fileSys coverText diffText sourceRoot moduleName).2.1 : ℚ) /
          ((runTriple fileSys coverText diffText sourceRoot moduleName).1 : ℚ),
          (runTriple fileSys coverText diffText sourceRoot moduleName).2.2.map
            (fun e => (e.1, sortInts e.2)), some belowErr)
      else
        (100 * ((runTriple fileSys coverText diffText sourceRoot moduleName).2.1 : ℚ) /
          ((runTriple fileSys coverText diffText sourceRoot moduleName).1 : ℚ),
          (runTriple fileSys coverText diffText sourceRoot moduleName).2.2.map
            (fun e => (e.1, sortInts e.2)), none)) := by
  unfold RunDiffCoverage runTriple
  rw [hm]

/- ================================================================== -/
/- C1                                                                 -/
/- ================================================================== -/

/-- C1: when the parsed AddedLines map is empty, RunDiffCoverage returns
exactly 100 with an empty uncovered map and no error, for every profile
text, source root and threshold — including thresholds above 100. -/
theorem C1_empty_added_lines (fileSys : Str → FileStat)
    (goModText coverText diffText sourceRoot : Str) (minCoverage : ℚ) (moduleName : Str)
    (hm : parseGoMod goModText = some moduleName)
    (hd : (parseDiffFile diffText moduleName).NewLines = []) :
    RunDiffCoverage fileSys goModText coverText diffText sourceRoot minCoverage =
      (100, [], none) := by
  unfold RunDiffCoverage
  rw [hm]
  simp [hd]

/-- Witness for C1: an empty diff yields the 100-percent verdict even at
threshold 150. -/
theorem C1_witness :
    parseGoMod gmW = some mW ∧ (parseDiffFile emptyStr mW).NewLines = [] ∧
      RunDiffCoverage fsW gmW covW emptyStr rootW 150 = (100, [], none) :=
  ⟨by decide, by decide,
    C1_empty_added_lines fsW gmW covW emptyStr rootW 150 mW (by decide) (by decide)⟩

theorem correlateLine_skip (coverage : CoverageData) (funcLines : FuncLines) (relFile : Str)
    (acc : Nat × Nat × List (Str × List Int)) (line : Int)
    (h : isLineInFunctions relFile line funcLines = false) :
    correlateLine coverage funcLines relFile acc line = acc := by
  unfold correlateLine
  rw [if_pos (by simp [h])]

theorem correlateFile_skip (coverage : CoverageData) (funcLines : FuncLines) (relFile : Str) :
    ∀ (lines : List Int) (acc : Nat × Nat × List (Str × List Int)),
      (∀ l ∈ lines, isLineInFunctions relFile l funcLines = false) →
      lines.foldl (correlateLine coverage funcLines relFile) acc = acc := by
  intro lines
  induction lines with
  | nil => intro acc h; rfl
  | cons l t ih =>
    intro acc h
    rw [List.foldl_cons, correlateLine_skip coverage funcLines relFile acc l (h l (by simp))]
    exact ih acc (fun x hx => h x (by simp [hx]))

theorem correlateEntries_skip (coverage : CoverageData) (moduleName : Str)
    (funcLines : FuncLines) :
    ∀ (newLines : List (Str × List Int)) (acc : Nat × Nat × List (Str × List Int)),
      (∀ e ∈ newLines, ∀ l ∈ e.2,
        isLineInFunctions (trimModule moduleName e.1) l funcLines = false) →
      newLines.foldl (fun acc entry =>
        entry.2.foldl (correlateLine coverage funcLines (trimModule moduleName entry.1)) acc)
        acc = acc := by
  intro newLines
  induction newLines with
  | nil => intro acc h; rfl
  | cons e t ih =>
    intro acc h
    rw [List.foldl_cons,
      correlateFile_skip coverage funcLines (trimModule moduleName e.1) e.2 acc (h e (by simp))]
    exact ih acc (fun e2 he2 => h e2 (by simp [he2]))

theorem correlate_all_outside (coverage : CoverageData) (moduleName : Str)
    (funcLines : FuncLines) (newLines : List (Str × List Int))
    (h : ∀ e ∈ newLines, ∀ l ∈ e.2,
      isLineInFunctions (trimModule moduleName e.1) l funcLines = false) :
    correlate coverage newLines moduleName funcLines = (0, 0, []) := by
  unfold correlate
  exact correlateEntries_skip coverage moduleName funcLines newLines (0, 0, []) h

/- ================================================================== -/
/- C3                                                                 -/
/- ================================================================== -/

/-- C3: when AddedLines is non-empty but every added line of every file
lies outside all function ranges of that file, totalNewLines is 0 after
filtering and RunDiffCoverage returns exactly 100 with no error, for any
threshold including 100. -/
theorem C3_added_outside_functions (fileSys : Str → FileStat)
    (goModText coverText diffText sourceRoot : Str) (minCoverage : ℚ) (moduleName : Str)
    (hm : parseGoMod goModText = some moduleName)
    (hne : (parseDiffFile diffText moduleName).NewLines ≠ [])
    (hout : ∀ e ∈ (parseDiffFile diffText moduleName).NewLines, ∀ l ∈ e.2,
      isLineInFunctions (trimModule moduleName e.1) l
        (parseGoFiles fileSys sourceRoot
          ((parseDiffFile diffText moduleName).NewLines.map
            (fun e => trimModule moduleName e.1))) = false) :
    (runTriple fileSys coverText diffText sourceRoot moduleName).1 = 0 ∧
    RunDiffCoverage fileSys goModText coverText diffText sourceRoot minCoverage =
      (100, [], none) := by
  have hcor : runTriple fileSys coverText diffText sourceRoot moduleName = (0, 0, []) := by
    unfold runTriple
    exact correlate_all_outside (parseCoverFile coverText moduleName) moduleName
      (parseGoFiles fileSys sourceRoot
        ((parseDiffFile diffText moduleName).NewLines.map
          (fun e => trimModule moduleName e.1)))
      (parseDiffFile diffText moduleName).NewLines hout
  refine ⟨by rw [hcor], ?_⟩
  rw [RunDiffCoverage_eq fileSys goModText coverText diffText sourceRoot minCoverage moduleName hm]
  rw [if_neg (by simpa using hne), hcor]
  simp

/-- Witness for C3: the diff adds line 20 of a.go, outside both function
ranges, so the verdict is 100 with no error at threshold 100. -/
theorem C3_witness :
    (parseDiffFile diffOutW mW).NewLines ≠ [] ∧
      (runTriple fsW covZeroW diffOutW rootW mW).1 = 0 ∧
      RunDiffCoverage fsW gmW covZeroW diffOutW rootW 100 = (100, [], none) :=
  ⟨by decide,
    C3_added_outside_functions fsW gmW covZeroW diffOutW rootW 100 mW
      (by decide) (by decide) (by decide)⟩

theorem correlateLine_pos (coverage : CoverageData) (funcLines : FuncLines) (relFile : Str)
    (acc : Nat × Nat × List (Str × List Int)) (line : Int)
    (h : acc.2.2 = [] ∨ 0 < acc.1) :
    (correlateLine coverage funcLines relFile acc line).2.2 = [] ∨
      0 < (correlateLine coverage funcLines relFile acc line).1 := by
  unfold correlateLine
  split
  · exact h
  · split
    · right
      show 0 < acc.1 + 1
      omega
    · right
      show 0 < acc.1 + 1
      omega

theorem correlateFile_pos (coverage : CoverageData) (funcLines : FuncLines) (relFile : Str) :
    ∀ (lines : List Int) (acc : Nat × Nat × List (Str × List Int)),
      (acc.2.2 = [] ∨ 0 < acc.1) →
      ((lines.foldl (correlateLine coverage funcLines relFile) acc).2.2 = [] ∨
        0 < (lines.foldl (correlateLine coverage funcLines relFile) acc).1) := by
  intro lines
  induction lines with
  | nil => intro acc h; exact h
  | cons l t ih =>
    intro acc h
    rw [List.foldl_cons]
    exact ih (correlateLine coverage funcLines relFile acc l)
      (correlateLine_pos coverage funcLines relFile acc l h)

theorem correlateEntries_pos (coverage : CoverageData) (moduleName : Str)
    (funcLines : FuncLines) :
    ∀ (newLines : List (Str × List Int)) (acc : Nat × Nat × List (Str × List Int)),
      (acc.2.2 = [] ∨ 0 < acc.1) →
      ((newLines.foldl (fun acc entry =>
          entry.2.foldl (correlateLine coverage funcLines (trimModule moduleName entry.1)) acc)
          acc).2.2 = [] ∨
        0 < (newLines.foldl (fun acc entry =>
          entry.2.foldl (correlateLine coverage funcLines (trimModule moduleName entry.1)) acc)
          acc).1) := by
  intro newLines
  induction newLines with
  | nil => intro acc h; exact h
  | cons e t ih =>
    intro acc h
    rw [List.foldl_cons]
    exact ih _ (correlateFile_pos coverage funcLines (trimModule moduleName e.1) e.2 acc h)

/-- A line is appended to the uncovered map only in the branch that also
increments totalNewLines, so a zero total forces an empty uncovered map. -/
theorem correlate_zero_uncovered (coverage : CoverageData) (newLines : List (Str × List Int))
    (moduleName : Str) (funcLines : FuncLines)
    (h : (correlate coverage newLines moduleName funcLines).1 = 0) :
    (correlate coverage newLines moduleName funcLines).2.2 = [] := by
  have hp := correlateEntries_pos coverage moduleName funcLines newLines (0, 0, [])
    (Or.inl rfl)
  unfold correlate at h ⊢
  rcases hp with h1 | h2
  · exact h1
  · rw [h] at h2
    exact absurd h2 (by omega)

/- ================================================================== -/
/- C10                                                                -/
/- ================================================================== -/

/-- C10: whenever RunDiffCoverage returns through the totalNewLines = 0
branch (module parse succeeded, AddedLines non-empty, correlation total
zero), the uncovered map it returns is empty. -/
theorem C10_zero_total_empty_uncovered (fileSys : Str → FileStat)
    (goModText coverText diffText sourceRoot : Str) (minCoverage : ℚ) (moduleName : Str)
    (hm : parseGoMod goModText = some moduleName)
    (hne : (parseDiffFile diffText moduleName).NewLines ≠ [])
    (htot : (runTriple fileSys coverText diffText sourceRoot moduleName).1 = 0) :
    RunDiffCoverage fileSys goModText coverText diffText sourceRoot minCoverage =
      (100, [], none) := by
  have htot2 := htot
  unfold runTriple at htot2
  have hunc : (runTriple fileSys coverText diffText sourceRoot moduleName).2.2 = [] := by
    unfold runTriple
    exact correlate_zero_uncovered _ _ _ _ htot2
  rw [RunDiffCoverage_eq fileSys goModText coverText diffText sourceRoot minCoverage moduleName hm]
  rw [if_neg (by simpa using hne), if_pos htot, hunc]
  simp

/-- Witness for C10: a run whose only added line lies outside every
function range reaches the zero-total branch and returns an empty
uncovered map. -/
theorem C10_witness :
    (runTriple fsW covW diffOutW rootW mW).1 = 0 ∧
      RunDiffCoverage fsW gmW covW diffOutW rootW 90 = (100, [], none) :=
  ⟨by decide,
    C10_zero_total_empty_uncovered fsW gmW covW diffOutW rootW 90 mW
      (by decide) (by decide) (by decide)⟩

/-- Per-file lists produced by mapping sortInts are sorted ascending. -/
theorem sorted_of_mem_sortInts_map (l : List (Str × List Int)) :
    ∀ q ∈ l.map (fun e => (e.1, sortInts e.2)), List.Sorted (· ≤ ·) q.2 := by
  intro q hq
  rw [List.mem_map] at hq
  obtain ⟨e, he, heq⟩ := hq
  rw [← heq]
  exact List.sorted_insertionSort (· ≤ ·) e.2

/- ================================================================== -/
/- C2                                                                 -/
/- ================================================================== -/

/-- C2: with all parse stages succeeding and totalNewLines > 0,
RunDiffCoverage errors exactly when the computed percentage
100 * covered / total is strictly below minCoverage, and in every case
(error or not) it returns that computed percentage and the complete
uncovered map with each file's list sorted ascending — nothing zeroed or
discarded on the below-threshold verdict. -/
theorem C2_below_threshold_verdict (fileSys : Str → FileStat)
    (goModText coverText diffText sourceRoot : Str) (minCoverage : ℚ) (moduleName : Str)
    (hm : parseGoMod goModText = some moduleName)
    (hne : (parseDiffFile diffText moduleName).NewLines ≠ [])
    (htot : 0 < (runTriple fileSys coverText diffText sourceRoot moduleName).1) :
    ((RunDiffCoverage fileSys goModText coverText diffText sourceRoot minCoverage).1 =
      100 * ((runTriple fileSys coverText diffText sourceRoot moduleName).2.1 : ℚ) /
        ((runTriple fileSys coverText diffText sourceRoot moduleName).1 : ℚ)) ∧
    ((RunDiffCoverage fileSys goModText coverText diffText sourceRoot minCoverage).2.1 =
      (runTriple fileSys coverText diffText sourceRoot moduleName).2.2.map
        (fun e => (e.1, sortInts e.2))) ∧
    ((RunDiffCoverage fileSys goModText coverText diffText sourceRoot minCoverage).2.2.isSome
        = true ↔
      100 * ((runTriple fileSys coverText diffText sourceRoot moduleName).2.1 : ℚ) /
        ((runTriple fileSys coverText diffText sourceRoot moduleName).1 : ℚ) < minCoverage) ∧
    (∀ q ∈ (RunDiffCoverage fileSys goModText coverText diffText sourceRoot minCoverage).2.1,
      List.Sorted (· ≤ ·) q.2) := by
  rw [RunDiffCoverage_eq fileSys goModText coverText diffText sourceRoot minCoverage moduleName hm]
  rw [if_neg (by simpa using hne), if_neg (by omega)]
  by_cases hlt : 100 * ((runTriple fileSys coverText diffText sourceRoot moduleName).2.1 : ℚ) /
      ((runTriple fileSys coverText diffText sourceRoot moduleName).1 : ℚ) < minCoverage
  · rw [if_pos hlt]
    exact ⟨rfl, rfl, by simp [hlt],
      sorted_of_mem_sortInts_map (runTriple fileSys coverText diffText sourceRoot moduleName).2.2⟩
  · rw [if_neg hlt]
    exact ⟨rfl, rfl, by simp [hlt],
      sorted_of_mem_sortInts_map (runTriple fileSys coverText diffText sourceRoot moduleName).2.2⟩

/-- Witness for C2: one added line inside a function, hit count 0, so the
percentage is 0 and threshold 50 produces the below-threshold error. -/
theorem C2_witness :
    0 < (runTriple fsW covZeroW diffW rootW mW).1 ∧
      (RunDiffCoverage fsW gmW covZeroW diffW rootW 50).2.2.isSome = true := by
  have h := C2_below_threshold_verdict fsW gmW covZeroW diffW rootW 50 mW
    (by decide) (by decide) (by decide)
  have htri : runTriple fsW covZeroW diffW rootW mW = (1, 0, [(fileW, [3])]) := by decide
  refine ⟨by decide, ?_⟩
  apply h.2.2.1.mpr
  rw [htri]
  norm_num
